import Mathlib

/-!
# Verification of the `script_deps` dependency collector

Shallow embedding of `src/script_deps/main.py` (class `DependencyCollector`).
Paths are modelled as lists of components of a resolved absolute path
(`["proj", "app.py"]` stands for `/proj/app.py`); the string rendering used by
`is_venv_module` joins them with `/`.  The parts of the host environment the
collector consults (the `ast` parser, `importlib` resolution, `pkg_resources`
metadata, directory listings) are modelled as finite association lists in an
`Env` record; the collector's own logic is translated line by line.
-/

namespace ScriptDeps

/-- A resolved absolute path, as its list of components. -/
abbrev Path := List String

/-- `listStartsWith hay needle`: `needle` is a prefix of `hay` (on characters). -/
def listStartsWith : List Char → List Char → Bool
  | _, [] => true
  | [], _ :: _ => false
  | a :: as, b :: bs => a == b && listStartsWith as bs

/-- `listHasSub hay needle`: `needle` occurs contiguously inside `hay`
(Python's `needle in hay` on strings). -/
def listHasSub : List Char → List Char → Bool
  | hay, needle =>
    listStartsWith hay needle ||
      match hay with
      | [] => false
      | _ :: t => listHasSub t needle

/-- Python `needle in hay` substring test. -/
def strContains (hay needle : String) : Bool :=
  listHasSub hay.data needle.data

/-- Python `str.lower()` (character-wise lowercasing). -/
def strLower (s : String) : String :=
  ⟨s.data.map Char.toLower⟩

/-- Python `s.split('.')[0]`: the part of a dotted module name before the
first dot. -/
def headComponent (s : String) : String :=
  ⟨s.data.takeWhile (fun c => c != '.')⟩

/-- The part of a `name==version` manifest line before the first `=`
(the package name). -/
def pkgName (s : String) : String :=
  ⟨s.data.takeWhile (fun c => c != '=')⟩

/-- Render a path as the string `Path.__str__` produces:
`/` + components joined with `/`. -/
def pathStr (p : Path) : String :=
  p.foldl (fun acc c => acc ++ "/" ++ c) ""

/-- Last component of a path (`Path.name`); empty for the root. -/
def lastComp (p : Path) : String :=
  (p.getLast?).getD ""

/-- `Path.parent`: drop the last component. -/
def parentPath (p : Path) : Path :=
  p.dropLast

/-- `Path.suffix`: the extension of the last component, including the leading
dot; empty when the name has no dot or only a leading dot. -/
def suffixOf (name : String) : String :=
  let r := name.data.reverse
  let ext := r.takeWhile (fun c => c != '.')
  if ext.length + 1 < name.data.length ∧ ext.length < r.length then
    ⟨'.' :: ext.reverse⟩
  else ""

/-- `root.relative_to`-style test: does `p` lie at or below `root`?
(`p.relative_to(root)` succeeds exactly when `root`'s components are a
prefix of `p`'s, both paths being resolved.) -/
def startsWithL : List String → List String → Bool
  | [], _ => true
  | _ :: _, [] => false
  | a :: as, b :: bs => a == b && startsWithL as bs

/-! ## Python AST fragment

`ast.walk` visits every node of the tree, so import statements are seen at
any nesting depth.  We model the statement forms `analyze_imports`
distinguishes: `ast.Import` (with its list of dotted names), `ast.ImportFrom`
(whose `module` field is `None` for purely relative imports), function
definitions, other compound statements with nested bodies, and other simple
statements. -/

mutual
inductive PyStmt : Type where
  | importStmt : List String → PyStmt
  | importFrom : Option String → PyStmt
  | funcDef : PyBody → PyStmt
  | compound : PyBody → PyStmt
  | simple : PyStmt
inductive PyBody : Type where
  | nil : PyBody
  | cons : PyStmt → PyBody → PyBody
end

/-- Statements of a body, as a list (for membership statements). -/
def PyBody.toList : PyBody → List PyStmt
  | .nil => []
  | .cons s t => s :: t.toList

mutual
/-- Names contributed by one statement during the `ast.walk` of
`analyze_imports`: each alias of an `import` contributes the first dotted
component; a `from x.y import z` contributes `x` when the `module` field is
present; nested bodies are walked. -/
def stmtImports : PyStmt → List String
  | .importStmt ds => ds.map headComponent
  | .importFrom (some d) => [headComponent d]
  | .importFrom none => []
  | .funcDef b => bodyImports b
  | .compound b => bodyImports b
  | .simple => []
/-- Names contributed by all statements of a body. -/
def bodyImports : PyBody → List String
  | .nil => []
  | .cons s t => stmtImports s ++ bodyImports t
end

/-- Source `DependencyCollector.analyze_imports` on an already-parsed module:
the set of top-level names imported anywhere in the tree (a Python `set`,
modelled as the deduplicated list). -/
def analyze_imports (m : PyBody) : List String :=
  (bodyImports m).dedup

/-! ## Collector configuration -/

/-- Constructor arguments of `DependencyCollector` that the discovery logic
reads: the resolved entry-point (`gateway_path`) and the resolved project
root (`root_path`). -/
structure Coll where
  gateway_path : Path
  root_path : Path
deriving DecidableEq

/-- Source `self.config_extensions = {'.txt', '.yaml', '.yml', '.json'}`. -/
def config_extensions : List String := [".txt", ".yaml", ".yml", ".json"]

/-- Source `DependencyCollector.is_venv_module`:
`'venv' in str(module_path).lower() or 'site-packages' in str(module_path)`. -/
def is_venv_module (pathAsStr : String) : Bool :=
  strContains (strLower pathAsStr) "venv" || strContains pathAsStr "site-packages"

/-- Source `DependencyCollector.is_project_module`: `False` for the gateway
path itself, otherwise whether `relative_to(root_path)` succeeds. -/
def is_project_module (C : Coll) (p : Path) : Bool :=
  if p = C.gateway_path then false
  else startsWithL C.root_path p

/-- The test `file_path.suffix.lower() in self.config_extensions`. -/
def isConfigFile (p : Path) : Bool :=
  config_extensions.contains (strLower (suffixOf (lastComp p)))

/-! ## Host environment

Everything the collector asks the host for, as finite tables. -/

/-- Association-list lookup (first match). -/
def lookupA {α β : Type} [DecidableEq α] : List (α × β) → α → Option β
  | [], _ => none
  | (k, v) :: t, a => if a = k then some v else lookupA t a

/-- Host environment: the parser, the module resolver, the package-metadata
registry and the directory listings, each as a finite table. -/
structure Env where
  /-- Result of `ast.parse` for each readable, syntactically valid source
  file; a path absent from this table raises when parsed. -/
  parseList : List (Path × PyBody)
  /-- Resolution by `importlib.import_module`: module name to resolved
  `__file__`; absent entries model `ImportError` or a module without a
  backing file ( `find_module_path` returns `None` for those). -/
  resolveList : List (String × Path)
  /-- Metadata of `pkg_resources`: module file path to its package's
  `name==version` line; absent entries model a metadata miss. -/
  pkgList : List (Path × String)
  /-- Listing `dir.rglob('*')` for each directory. -/
  rglobList : List (Path × List Path)

/-- Parse a file (`ast.parse`), `none` meaning an exception. -/
def parseFn (E : Env) (p : Path) : Option PyBody := lookupA E.parseList p

/-- Resolve one module name to its backing file, if any. -/
def resolveFn (E : Env) (n : String) : Option Path := lookupA E.resolveList n

/-- Package metadata for a module file, if any. -/
def pkgFn (E : Env) (p : Path) : Option String := lookupA E.pkgList p

/-- Recursive listing of a directory (empty when unknown). -/
def rglobFn (E : Env) (d : Path) : List Path := (lookupA E.rglobList d).getD []

/-! ## Collector state -/

/-- Mutable state of a `DependencyCollector`.  The two Python sets are
modelled as duplicate-free lists with guarded insertion.  The `trace` field
is ghost instrumentation recording, in order, each file on which
`collect_static_dependencies` starts; no operation reads it. -/
structure St where
  collected : List Path
  third : List String
  trace : List Path
deriving DecidableEq

/-- Set-insert into `collected_files`. -/
def addFile (st : St) (p : Path) : St :=
  if p ∈ st.collected then st else { st with collected := p :: st.collected }

/-- Set-insert into `third_party_packages`. -/
def addThird (st : St) (s : String) : St :=
  if s ∈ st.third then st else { st with third := s :: st.third }

/-- Ghost: record that a file is being analyzed. -/
def addTrace (st : St) (p : Path) : St := { st with trace := st.trace ++ [p] }

/-- State after `DependencyCollector.__init__`: the gateway script is added
to the collected files, the other sets start empty. -/
def initSt (C : Coll) : St :=
  { collected := [C.gateway_path], third := [], trace := [] }

/-- The files `collect_config_files` adds when sweeping around a module at
path p: every file under the parent directory whose (lowercased) suffix is
a config extension and which is a project module. -/
def configFiles (E : Env) (C : Coll) (p : Path) : List Path :=
  (rglobFn E (parentPath p)).filter (fun f => isConfigFile f && is_project_module C f)

/-- Source `DependencyCollector.collect_config_files` (the resolved module
files handed to it always exist, so the `is_file` guard is vacuous). -/
def collect_config_files (E : Env) (C : Coll) (st : St) (p : Path) : St :=
  (configFiles E C p).foldl addFile st

/-- Source `DependencyCollector.find_module_path`: resolve the name; when the
backing file is a venv module and metadata is found, record the package; in
all cases return the resolved path (or none). -/
def find_module_path (E : Env) (st : St) (name : String) : St × Option Path :=
  match resolveFn E name with
  | none => (st, none)
  | some p =>
    if is_venv_module (pathStr p) then
      match pkgFn E p with
      | some pkg => (addThird st pkg, some p)
      | none => (st, some p)
    else (st, some p)

/-! ## The static graph walker

Source `collect_static_dependencies` is direct recursion; we index it by
fuel (one unit per call, including per loop step of the `for` over imports)
so the definition is structural and executable.  The fuel is an artifact of
the embedding: the sufficiency theorem below shows a computable bound on
which the walk never exhausts it. -/

/-- Exceptions escaping the walk: a parse failure from `ast.parse`, or the
artificial fuel exhaustion of the embedding. -/
inductive Err where
  | parseErr : Err
  | fuelOut : Err
deriving DecidableEq

instance {ε α : Type} [DecidableEq ε] [DecidableEq α] : DecidableEq (Except ε α)
  | .ok a, .ok b =>
    if h : a = b then .isTrue (by simp [h]) else .isFalse (by simp [h])
  | .ok _, .error _ => .isFalse (by simp)
  | .error _, .ok _ => .isFalse (by simp)
  | .error a, .error b =>
    if h : a = b then .isTrue (by simp [h]) else .isFalse (by simp [h])

/-- A pending activity of the walker: analyzing one file (a call of
`collect_static_dependencies`), or the remainder of its import loop. -/
inductive Job where
  | file : Path → Job
  | imps : List String → Job
deriving DecidableEq

/-- One step of source `collect_static_dependencies`: analyze the file
(line 159, may raise), sweep its directory (line 162), then loop over
the imports: resolve each (line 164); when the result is a project module not
yet collected, add it, sweep its directory, and recurse (lines 165-170). -/
def run (E : Env) (C : Coll) : Nat → St → Job → Except Err St
  | 0, _, _ => .error .fuelOut
  | fuel + 1, st, .file p =>
    match parseFn E p with
    | none => .error .parseErr
    | some m =>
      run E C fuel (collect_config_files E C (addTrace st p) p) (.imps (analyze_imports m))
  | _ + 1, st, .imps [] => .ok st
  | fuel + 1, st, .imps (n :: rest) =>
    match find_module_path E st n with
    | (st1, none) => run E C fuel st1 (.imps rest)
    | (st1, some q) =>
      if is_project_module C q then
        if q ∈ st1.collected then run E C fuel st1 (.imps rest)
        else
          match run E C fuel (collect_config_files E C (addFile st1 q) q) (.file q) with
          | .ok st2 => run E C fuel st2 (.imps rest)
          | .error e => .error e
      else run E C fuel st1 (.imps rest)

/-- Source `DependencyCollector.collect_static_dependencies`, at fuel. -/
def collect_static_dependencies (E : Env) (C : Coll) (fuel : Nat) (st : St) (p : Path) :
    Except Err St :=
  run E C fuel st (.file p)

/-- Source `DependencyCollector.collect_runtime_dependencies`, applied to the
resolved `__file__` values of the modules newly present in `sys.modules`
after the pytest run (`none` for modules without a file): each project
module is added and its directory swept. -/
def collect_runtime_dependencies (E : Env) (C : Coll) (st : St)
    (newModFiles : List (Option Path)) : St :=
  newModFiles.foldl
    (fun st op =>
      match op with
      | some p =>
        if is_project_module C p then collect_config_files E C (addFile st p) p else st
      | none => st)
    st

/-! ## Bundle assembly -/

/-- The source files `copy_dependencies` copies: members of the collected
set passing the filter on line 69 (`is_project_module` and not
`is_venv_module`); the `relative_to` inside the loop cannot fail for them. -/
def copy_sources (C : Coll) (st : St) : List Path :=
  st.collected.filter (fun p => is_project_module C p && !is_venv_module (pathStr p))

/-- Comparison of characters by code point (the order Python string
comparison uses). -/
def charLtB (a b : Char) : Bool := a.toNat < b.toNat

/-- Lexicographic comparison of character lists by code point: Python's
string less-than. -/
def charListLt : List Char → List Char → Bool
  | [], [] => false
  | [], _ :: _ => true
  | _ :: _, [] => false
  | a :: as, b :: bs => charLtB a b || (a == b && charListLt as bs)

/-- Python string less-or-equal (the order used by the builtin sort). -/
def strLe (a b : String) : Bool := charListLt a.data b.data || a == b

instance strLeDecRel : DecidableRel (fun a b : String => strLe a b = true) :=
  fun _ _ => instDecidableEqBool _ _

/-- Source `DependencyCollector.create_requirements_txt`: the lines written,
or `none` when no file is written (empty package set); the recorded
`name==version` strings are sorted by Python's builtin string order. -/
def create_requirements_txt (third : List String) : Option (List String) :=
  if third = [] then none
  else some (third.insertionSort (fun a b => strLe a b = true))

/-! ## Termination bookkeeping for the embedding -/

/-- All backing files the resolver can ever return. -/
def allPathsE (E : Env) : List Path := E.resolveList.map (fun pr => pr.2)

/-- Number of resolvable files not yet collected: the quantity the walk
strictly decreases at each recursion into a fresh module. -/
def deficit (E : Env) (st : St) : Nat :=
  (allPathsE E).countP (fun q => decide (¬ q ∈ st.collected))

/-- Strict upper bound on the length of any import list the parser can
produce in this environment. -/
def impBound (E : Env) : Nat :=
  1 + (E.parseList.map (fun pr => (analyze_imports pr.2).length)).foldr max 0

/-- Fuel bound under which the walk never exhausts its fuel. -/
def fuelBound (E : Env) (st : St) : Job → Nat
  | .file _ => (impBound E + 1) * deficit E st + impBound E
  | .imps ns => (impBound E + 1) * deficit E st + ns.length

/-! ## Statement-side notions

Definitions below render the claims' vocabulary; they are compared against
the source-translated functions above, never used by them. -/

/-- Collected set of a successful walk (empty on an exception). -/
def okCollected : Except Err St → List Path
  | .ok st => st.collected
  | .error _ => []

/-- Concatenation of statement bodies. -/
def PyBody.append : PyBody → PyBody → PyBody
  | .nil, c => c
  | .cons s t, c => .cons s (t.append c)

/-- The claims' reading of one import mention: an alias of a plain import
statement contributes the first dotted component of its module name, a
from-import with a present module field contributes the first dotted
component of that name, and mentions propagate out of nested bodies. -/
inductive Mentions : PyStmt → String → Prop where
  | imp {ds : List String} {d : String} :
      d ∈ ds → Mentions (.importStmt ds) (headComponent d)
  | fromImp {d : String} : Mentions (.importFrom (some d)) (headComponent d)
  | inFunc {b : PyBody} {s : PyStmt} {n : String} :
      s ∈ b.toList → Mentions s n → Mentions (.funcDef b) n
  | inCompound {b : PyBody} {s : PyStmt} {n : String} :
      s ∈ b.toList → Mentions s n → Mentions (.compound b) n

/-- The spec's project-ownership classification: underneath the root,
not the entry point, and not inside an installation directory. -/
def project_owned_spec (C : Coll) (p : Path) : Prop :=
  p ≠ C.gateway_path ∧ C.root_path <+: p ∧ is_venv_module (pathStr p) = false

/-- The spec's dependency-installation-directory test: a venv segment or an
installed-packages segment occurs in the path string, case-insensitively. -/
def venv_dir_spec (s : String) : Prop :=
  "venv".data <:+: (strLower s).data ∨ "site-packages".data <:+: (strLower s).data

/-- Well-formedness the walker maintains: the analyzed-files trace is
duplicate-free, every traced file is collected, and the collected list is
duplicate-free (it models a set). -/
def Inv (st : St) : Prop :=
  st.trace.Nodup ∧ (∀ q ∈ st.trace, q ∈ st.collected) ∧ st.collected.Nodup

/-- After a file's import loop has run, what holds of each of its import
names: a resolved project module is collected, and the package metadata of a
resolved venv module is recorded. -/
def SatName (E : Env) (C : Coll) (st : St) (n : String) : Prop :=
  match resolveFn E n with
  | none => True
  | some q =>
      (is_project_module C q = true → q ∈ st.collected) ∧
      (is_venv_module (pathStr q) = true →
        ∀ pkg, pkgFn E q = some pkg → pkg ∈ st.third)

/-! ## Concrete fixtures (used by witnesses and counterexamples) -/

/-- Collector for a project at root `/proj` with entry point `/proj/app.py`. -/
def projColl : Coll := ⟨["proj", "app.py"], ["proj"]⟩

/-- Mutual-import fixture: the entry imports module a, and modules a and
b import each other. -/
def cycEnv : Env :=
  ⟨[(["proj", "app.py"], .cons (.importStmt ["a"]) .nil),
    (["proj", "a.py"], .cons (.importStmt ["b"]) .nil),
    (["proj", "b.py"], .cons (.importStmt ["a"]) .nil)],
   [("a", ["proj", "a.py"]), ("b", ["proj", "b.py"])], [], []⟩

/-- Lazy-import fixture: the entry's only statement is a function whose
body imports module lazym, which resolves under the root. -/
def lazyEnv : Env :=
  ⟨[(["proj", "app.py"], .cons (.funcDef (.cons (.importStmt ["lazym"]) .nil)) .nil),
    (["proj", "lazym.py"], .nil)],
   [("lazym", ["proj", "lazym.py"])], [], []⟩

/-- Venv-under-root fixture: the entry imports module m whose backing file
lives in a venv directory underneath the project root. -/
def venvEnv : Env :=
  ⟨[(["proj", "app.py"], .cons (.importStmt ["m"]) .nil),
    (["proj", "venv", "lib", "m.py"], .nil)],
   [("m", ["proj", "venv", "lib", "m.py"])], [], []⟩

/-- Empty host: no file parses, nothing resolves. -/
def emptyEnv : Env := ⟨[], [], [], []⟩

/-! # Theorems

## Bridges between the executable string operations and their
mathematical statements -/

theorem listStartsWith_iff : ∀ h n : List Char, listStartsWith h n = true ↔ n <+: h
  | _, [] => by simp [listStartsWith, List.nil_prefix]
  | [], _ :: _ => by simp [listStartsWith, List.prefix_nil]
  | a :: as, b :: bs => by
    simp only [listStartsWith, Bool.and_eq_true, beq_iff_eq, listStartsWith_iff as bs,
      List.cons_prefix_cons]
    exact and_congr_left (fun _ => eq_comm)

theorem listHasSub_iff : ∀ h n : List Char, listHasSub h n = true ↔ n <:+: h
  | [], n => by
    rw [listHasSub]
    simp [listStartsWith_iff, List.prefix_nil, List.infix_nil]
  | a :: t, n => by
    rw [listHasSub]
    simp only [Bool.or_eq_true, listStartsWith_iff, listHasSub_iff t n,
      List.infix_cons_iff]

theorem strContains_iff (hay needle : String) :
    strContains hay needle = true ↔ needle.data <:+: hay.data :=
  listHasSub_iff _ _

theorem startsWithL_iff : ∀ r p : List String, startsWithL r p = true ↔ r <+: p
  | [], _ => by simp [startsWithL, List.nil_prefix]
  | _ :: _, [] => by simp [startsWithL, List.prefix_nil]
  | a :: as, b :: bs => by
    simp only [startsWithL, Bool.and_eq_true, beq_iff_eq, startsWithL_iff as bs,
      List.cons_prefix_cons]

theorem char_toNat_inj {a b : Char} (h : a.toNat = b.toNat) : a = b := by
  have hsm : StrictMono Char.toNat := fun _ _ hl => hl
  exact hsm.injective h

theorem charLtB_iff (a b : Char) : charLtB a b = true ↔ a.toNat < b.toNat := by
  simp [charLtB]

theorem charListLt_trans (a : List Char) :
    ∀ b c, charListLt a b = true → charListLt b c = true → charListLt a c = true := by
  induction a with
  | nil =>
    intro b c hab hbc
    cases c with
    | nil =>
      cases b with
      | nil => simp [charListLt] at hab
      | cons y ys => simp [charListLt] at hbc
    | cons z zs => simp [charListLt]
  | cons x xs ih =>
    intro b c hab hbc
    cases b with
    | nil => simp [charListLt] at hab
    | cons y ys =>
      cases c with
      | nil => simp [charListLt] at hbc
      | cons z zs =>
        simp only [charListLt, Bool.or_eq_true, Bool.and_eq_true, beq_iff_eq,
          charLtB_iff] at hab hbc ⊢
        rcases hab with h1 | ⟨hxy, h1⟩
        · rcases hbc with h2 | ⟨hyz, h2⟩
          · exact Or.inl (Nat.lt_trans h1 h2)
          · subst hyz; exact Or.inl h1
        · subst hxy
          rcases hbc with h2 | ⟨hyz, h2⟩
          · exact Or.inl h2
          · subst hyz; exact Or.inr ⟨rfl, ih ys zs h1 h2⟩

theorem charListLt_total (a : List Char) :
    ∀ b, charListLt a b = true ∨ charListLt b a = true ∨ a = b := by
  induction a with
  | nil =>
    intro b
    cases b with
    | nil => exact Or.inr (Or.inr rfl)
    | cons y ys => exact Or.inl (by simp [charListLt])
  | cons x xs ih =>
    intro b
    cases b with
    | nil => exact Or.inr (Or.inl (by simp [charListLt]))
    | cons y ys =>
      rcases Nat.lt_trichotomy x.toNat y.toNat with h | h | h
      · exact Or.inl (by simp [charListLt, charLtB_iff, h])
      · have hxy : x = y := char_toNat_inj h
        subst hxy
        rcases ih ys with h1 | h1 | h1
        · exact Or.inl (by simp [charListLt, h1])
        · exact Or.inr (Or.inl (by simp [charListLt, h1]))
        · exact Or.inr (Or.inr (by rw [h1]))
      · exact Or.inr (Or.inl (by simp [charListLt, charLtB_iff, h]))

theorem strLe_total (a b : String) : strLe a b = true ∨ strLe b a = true := by
  rcases charListLt_total a.data b.data with h | h | h
  · exact Or.inl (by simp [strLe, h])
  · exact Or.inr (by simp [strLe, h])
  · have hab : a = b := by
      cases a; cases b; exact congrArg String.mk h
    subst hab
    exact Or.inl (by simp [strLe])

theorem strLe_trans {a b c : String} (h1 : strLe a b = true) (h2 : strLe b c = true) :
    strLe a c = true := by
  simp only [strLe, Bool.or_eq_true, beq_iff_eq] at h1 h2 ⊢
  rcases h1 with h1 | rfl
  · rcases h2 with h2 | rfl
    · exact Or.inl (charListLt_trans _ _ _ h1 h2)
    · exact Or.inl h1
  · exact h2

/-! ## Generic list facts -/

theorem lookupA_mem {α β : Type} [DecidableEq α] :
    ∀ (l : List (α × β)) (a : α) (b : β), lookupA l a = some b → (a, b) ∈ l := by
  intro l
  induction l with
  | nil => intro a b h; simp [lookupA] at h
  | cons kv t ih =>
    intro a b h
    rw [show kv = (kv.1, kv.2) from rfl, lookupA] at h
    split at h
    · rename_i heq
      cases h
      subst heq
      exact List.mem_cons_self _ _
    · exact List.mem_cons_of_mem _ (ih a b h)

theorem le_foldr_max : ∀ (l : List Nat) (x : Nat), x ∈ l → x ≤ l.foldr max 0
  | [], x => by simp
  | a :: t, x => by
    intro hx
    show x ≤ max a (t.foldr max 0)
    rcases List.mem_cons.mp hx with rfl | hx
    · exact le_max_left _ _
    · exact le_trans (le_foldr_max t x hx) (le_max_right _ _)

theorem countP_lt_of_mem {α : Type} {p q : α → Bool} {l : List α} {x : α}
    (hx : x ∈ l) (hpx : p x = true) (hqx : q x = false)
    (himp : ∀ y ∈ l, q y = true → p y = true) :
    l.countP q < l.countP p := by
  induction l with
  | nil => simp at hx
  | cons a t ih =>
    rw [List.countP_cons, List.countP_cons]
    have hmono : t.countP q ≤ t.countP p :=
      List.countP_mono_left (fun y hy => himp y (List.mem_cons_of_mem _ hy))
    rcases List.mem_cons.mp hx with rfl | hx
    · rw [hpx, hqx]
      simpa using Nat.add_lt_add_of_le_of_lt hmono Nat.zero_lt_one
    · have hlt : t.countP q < t.countP p :=
        ih hx (fun y hy => himp y (List.mem_cons_of_mem _ hy))
      have hif : (if q a = true then 1 else 0) ≤ (if p a = true then 1 else 0) := by
        by_cases hqa : q a = true
        · rw [if_pos hqa, if_pos (himp a (List.mem_cons_self a t) hqa)]
        · rw [if_neg hqa]
          exact Nat.zero_le _
      exact Nat.add_lt_add_of_lt_of_le hlt hif

/-! ## State-operation facts -/

theorem addFile_collected_mem (st : St) (p x : Path) :
    x ∈ (addFile st p).collected ↔ x = p ∨ x ∈ st.collected := by
  unfold addFile
  split
  · rename_i h
    constructor
    · exact Or.inr
    · rintro (rfl | hx)
      · exact h
      · exact hx
  · simp [List.mem_cons]

theorem addFile_self_mem (st : St) (p : Path) : p ∈ (addFile st p).collected := by
  rw [addFile_collected_mem]
  exact Or.inl rfl

theorem addFile_third (st : St) (p : Path) : (addFile st p).third = st.third := by
  unfold addFile
  split <;> rfl

theorem addFile_trace (st : St) (p : Path) : (addFile st p).trace = st.trace := by
  unfold addFile
  split <;> rfl

theorem addFile_nodup (st : St) (p : Path) (h : st.collected.Nodup) :
    (addFile st p).collected.Nodup := by
  unfold addFile
  split
  · exact h
  · rename_i hmem
    exact List.nodup_cons.mpr ⟨hmem, h⟩

theorem addFile_of_mem {st : St} {p : Path} (h : p ∈ st.collected) :
    addFile st p = st := by
  unfold addFile
  rw [if_pos h]

theorem addThird_third_mem (st : St) (s x : String) :
    x ∈ (addThird st s).third ↔ x = s ∨ x ∈ st.third := by
  unfold addThird
  split
  · rename_i h
    constructor
    · exact Or.inr
    · rintro (rfl | hx)
      · exact h
      · exact hx
  · simp [List.mem_cons]

theorem addThird_collected (st : St) (s : String) :
    (addThird st s).collected = st.collected := by
  unfold addThird
  split <;> rfl

theorem addThird_trace (st : St) (s : String) : (addThird st s).trace = st.trace := by
  unfold addThird
  split <;> rfl

theorem addThird_of_mem {st : St} {s : String} (h : s ∈ st.third) :
    addThird st s = st := by
  unfold addThird
  rw [if_pos h]

theorem foldl_addFile_collected_mem :
    ∀ (l : List Path) (st : St) (x : Path),
      x ∈ (l.foldl addFile st).collected ↔ x ∈ st.collected ∨ x ∈ l
  | [], st, x => by simp
  | p :: t, st, x => by
    rw [List.foldl_cons, foldl_addFile_collected_mem t (addFile st p) x,
      addFile_collected_mem]
    simp only [List.mem_cons]
    tauto

theorem foldl_addFile_third :
    ∀ (l : List Path) (st : St), (l.foldl addFile st).third = st.third
  | [], _ => rfl
  | p :: t, st => by
    rw [List.foldl_cons, foldl_addFile_third t (addFile st p), addFile_third]

theorem foldl_addFile_trace :
    ∀ (l : List Path) (st : St), (l.foldl addFile st).trace = st.trace
  | [], _ => rfl
  | p :: t, st => by
    rw [List.foldl_cons, foldl_addFile_trace t (addFile st p), addFile_trace]

theorem foldl_addFile_nodup :
    ∀ (l : List Path) (st : St), st.collected.Nodup →
      (l.foldl addFile st).collected.Nodup
  | [], _, h => h
  | p :: t, st, h => by
    rw [List.foldl_cons]
    exact foldl_addFile_nodup t (addFile st p) (addFile_nodup st p h)

theorem foldl_addFile_of_mem :
    ∀ (l : List Path) (st : St), (∀ x ∈ l, x ∈ st.collected) → l.foldl addFile st = st
  | [], _, _ => rfl
  | p :: t, st, h => by
    rw [List.foldl_cons, addFile_of_mem (h p (List.mem_cons_self p t))]
    exact foldl_addFile_of_mem t st (fun x hx => h x (List.mem_cons_of_mem _ hx))

theorem ccf_collected_mem (E : Env) (C : Coll) (st : St) (p x : Path) :
    x ∈ (collect_config_files E C st p).collected ↔
      x ∈ st.collected ∨ x ∈ configFiles E C p :=
  foldl_addFile_collected_mem _ _ _

theorem ccf_third (E : Env) (C : Coll) (st : St) (p : Path) :
    (collect_config_files E C st p).third = st.third :=
  foldl_addFile_third _ _

theorem ccf_trace (E : Env) (C : Coll) (st : St) (p : Path) :
    (collect_config_files E C st p).trace = st.trace :=
  foldl_addFile_trace _ _

theorem ccf_nodup (E : Env) (C : Coll) (st : St) (p : Path)
    (h : st.collected.Nodup) : (collect_config_files E C st p).collected.Nodup :=
  foldl_addFile_nodup _ _ h

theorem ccf_of_mem {E : Env} {C : Coll} {st : St} {p : Path}
    (h : ∀ x ∈ configFiles E C p, x ∈ st.collected) :
    collect_config_files E C st p = st :=
  foldl_addFile_of_mem _ _ h

/-! ## Facts about the resolver wrapper -/

theorem fmp_snd (E : Env) (st : St) (n : String) :
    (find_module_path E st n).2 = resolveFn E n := by
  unfold find_module_path
  split
  · rename_i heq
    rw [heq]
  · rename_i p heq
    rw [heq]
    split
    · split <;> rfl
    · rfl

theorem fmp_fst_collected (E : Env) (st : St) (n : String) :
    (find_module_path E st n).1.collected = st.collected := by
  unfold find_module_path
  split
  · rfl
  · split
    · split
      · exact addThird_collected _ _
      · rfl
    · rfl

theorem fmp_fst_trace (E : Env) (st : St) (n : String) :
    (find_module_path E st n).1.trace = st.trace := by
  unfold find_module_path
  split
  · rfl
  · split
    · split
      · exact addThird_trace _ _
      · rfl
    · rfl

theorem fmp_fst_third_mem (E : Env) (st : St) (n : String) (x : String)
    (h : x ∈ st.third) : x ∈ (find_module_path E st n).1.third := by
  unfold find_module_path
  split
  · exact h
  · split
    · split
      · rw [addThird_third_mem]
        exact Or.inr h
      · exact h
    · exact h

theorem fmp_records_pkg (E : Env) (st : St) (n : String) (q : Path) (pkg : String)
    (hq : resolveFn E n = some q) (hv : is_venv_module (pathStr q) = true)
    (hp : pkgFn E q = some pkg) : pkg ∈ (find_module_path E st n).1.third := by
  unfold find_module_path
  rw [hq]
  simp only [hv, if_true, hp]
  rw [addThird_third_mem]
  exact Or.inl rfl

theorem fmp_fst_noop (E : Env) (st : St) (n : String)
    (h : ∀ q pkg, resolveFn E n = some q → is_venv_module (pathStr q) = true →
      pkgFn E q = some pkg → pkg ∈ st.third) :
    (find_module_path E st n).1 = st := by
  unfold find_module_path
  split
  · rfl
  · rename_i p heq
    split
    · rename_i hv
      split
      · rename_i pkg hpkg
        exact addThird_of_mem (h p pkg heq hv hpkg)
      · rfl
    · rfl

/-! ## Monotonicity of the walker

A successful walk only ever grows the collected set and the package set,
and appends to the trace. -/

theorem run_mono (E : Env) (C : Coll) :
    ∀ (fuel : Nat) (st : St) (j : Job) (st' : St), run E C fuel st j = .ok st' →
      (∀ x ∈ st.collected, x ∈ st'.collected) ∧
      (∀ x ∈ st.third, x ∈ st'.third) ∧
      (∃ t, st'.trace = st.trace ++ t) := by
  intro fuel
  induction fuel with
  | zero =>
    intro st j st' h
    rw [run] at h
    simp at h
  | succ fuel ih =>
    intro st j st' h
    match j with
    | .file p =>
      rw [run] at h
      split at h
      · simp at h
      · rename_i m hm
        obtain ⟨h1, h2, t, ht⟩ := ih _ _ _ h
        refine ⟨?_, ?_, ⟨[p] ++ t, ?_⟩⟩
        · intro x hx
          apply h1
          rw [ccf_collected_mem]
          exact Or.inl hx
        · intro x hx
          apply h2
          rw [ccf_third]
          exact hx
        · rw [ht, ccf_trace]
          show _ = st.trace ++ ([p] ++ t)
          rw [← List.append_assoc]
          rfl
    | .imps [] =>
      rw [run] at h
      simp only [Except.ok.injEq] at h
      subst h
      exact ⟨fun x hx => hx, fun x hx => hx, [], by simp⟩
    | .imps (n :: rest) =>
      rw [run] at h
      split at h
      · rename_i st1 heq
        have hfst : (find_module_path E st n).1 = st1 := by rw [heq]
        obtain ⟨h1, h2, t, ht⟩ := ih _ _ _ h
        refine ⟨?_, ?_, ⟨t, ?_⟩⟩
        · intro x hx
          apply h1
          rw [← hfst, fmp_fst_collected]
          exact hx
        · intro x hx
          apply h2
          rw [← hfst]
          exact fmp_fst_third_mem E st n x hx
        · rw [ht, ← hfst, fmp_fst_trace]
      · rename_i st1 q heq
        have hfst : (find_module_path E st n).1 = st1 := by rw [heq]
        split at h
        · -- project module
          split at h
          · -- already collected
            obtain ⟨h1, h2, t, ht⟩ := ih _ _ _ h
            refine ⟨?_, ?_, ⟨t, ?_⟩⟩
            · intro x hx
              apply h1
              rw [← hfst, fmp_fst_collected]
              exact hx
            · intro x hx
              apply h2
              rw [← hfst]
              exact fmp_fst_third_mem E st n x hx
            · rw [ht, ← hfst, fmp_fst_trace]
          · -- fresh project module: recurse into it, then the rest
            split at h
            · rename_i st3 hrun1
              obtain ⟨g1, g2, t1, gt⟩ := ih _ _ _ hrun1
              obtain ⟨h1, h2, t2, ht⟩ := ih _ _ _ h
              refine ⟨?_, ?_, ⟨t1 ++ t2, ?_⟩⟩
              · intro x hx
                apply h1
                apply g1
                rw [ccf_collected_mem, addFile_collected_mem]
                left
                right
                rw [← hfst, fmp_fst_collected]
                exact hx
              · intro x hx
                apply h2
                apply g2
                rw [ccf_third, addFile_third, ← hfst]
                exact fmp_fst_third_mem E st n x hx
              · rw [ht, gt, ccf_trace, addFile_trace, ← hfst, fmp_fst_trace,
                  List.append_assoc]
            · simp at h
        · -- not a project module
          obtain ⟨h1, h2, t, ht⟩ := ih _ _ _ h
          refine ⟨?_, ?_, ⟨t, ?_⟩⟩
          · intro x hx
            apply h1
            rw [← hfst, fmp_fst_collected]
            exact hx
          · intro x hx
            apply h2
            rw [← hfst]
            exact fmp_fst_third_mem E st n x hx
          · rw [ht, ← hfst, fmp_fst_trace]

/-! ## Preservation of the walker invariant -/

theorem Inv_congr {a b : St} (hc : a.collected = b.collected)
    (ht : a.trace = b.trace) (h : Inv b) : Inv a := by
  obtain ⟨h1, h2, h3⟩ := h
  refine ⟨?_, ?_, ?_⟩
  · rw [ht]; exact h1
  · intro q hq
    rw [hc]
    exact h2 q (by rw [← ht]; exact hq)
  · rw [hc]; exact h3

theorem Inv_addTrace {st : St} {p : Path} (h : Inv st) (hp : p ∈ st.collected)
    (hnt : p ∉ st.trace) : Inv (addTrace st p) := by
  obtain ⟨h1, h2, h3⟩ := h
  refine ⟨?_, ?_, h3⟩
  · rw [addTrace]
    rw [List.nodup_append]
    exact ⟨h1, List.nodup_singleton p, by
      intro a ha hb
      rw [List.mem_singleton] at hb
      subst hb
      exact hnt ha⟩
  · intro q hq
    rw [addTrace] at hq
    rcases List.mem_append.mp hq with hq | hq
    · exact h2 q hq
    · rw [List.mem_singleton] at hq
      subst hq
      exact hp

theorem Inv_addFile {st : St} (h : Inv st) (p : Path) : Inv (addFile st p) := by
  obtain ⟨h1, h2, h3⟩ := h
  refine ⟨?_, ?_, addFile_nodup st p h3⟩
  · rw [addFile_trace]; exact h1
  · intro q hq
    rw [addFile_trace] at hq
    rw [addFile_collected_mem]
    exact Or.inr (h2 q hq)

theorem Inv_ccf (E : Env) (C : Coll) {st : St} (h : Inv st) (p : Path) :
    Inv (collect_config_files E C st p) := by
  obtain ⟨h1, h2, h3⟩ := h
  refine ⟨?_, ?_, ccf_nodup E C st p h3⟩
  · rw [ccf_trace]; exact h1
  · intro q hq
    rw [ccf_trace] at hq
    rw [ccf_collected_mem]
    exact Or.inl (h2 q hq)

theorem run_inv (E : Env) (C : Coll) :
    ∀ (fuel : Nat) (st : St) (j : Job) (st' : St), run E C fuel st j = .ok st' →
      Inv st → (∀ p, j = .file p → p ∈ st.collected ∧ p ∉ st.trace) → Inv st' := by
  intro fuel
  induction fuel with
  | zero =>
    intro st j st' h
    rw [run] at h
    simp at h
  | succ fuel ih =>
    intro st j st' h hInv hpre
    match j with
    | .file p =>
      rw [run] at h
      split at h
      · simp at h
      · rename_i m hm
        obtain ⟨hp, hnt⟩ := hpre p rfl
        exact ih _ _ _ h (Inv_ccf E C (Inv_addTrace hInv hp hnt) p) (by intro q hq; cases hq)
    | .imps [] =>
      rw [run] at h
      simp only [Except.ok.injEq] at h
      subst h
      exact hInv
    | .imps (n :: rest) =>
      rw [run] at h
      split at h
      · rename_i st1 heq
        have hfst : (find_module_path E st n).1 = st1 := by rw [heq]
        have hInv1 : Inv st1 :=
          Inv_congr (by rw [← hfst, fmp_fst_collected]) (by rw [← hfst, fmp_fst_trace]) hInv
        exact ih _ _ _ h hInv1 (by intro q hq; cases hq)
      · rename_i st1 q heq
        have hfst : (find_module_path E st n).1 = st1 := by rw [heq]
        have hcoll : st1.collected = st.collected := by rw [← hfst, fmp_fst_collected]
        have htr : st1.trace = st.trace := by rw [← hfst, fmp_fst_trace]
        have hInv1 : Inv st1 := Inv_congr hcoll htr hInv
        split at h
        · split at h
          · exact ih _ _ _ h hInv1 (by intro r hr; cases hr)
          · rename_i hfresh
            split at h
            · rename_i st3 hrun1
              have hInv2 : Inv (collect_config_files E C (addFile st1 q) q) :=
                Inv_ccf E C (Inv_addFile hInv1 q) q
              have hqmem : q ∈ (collect_config_files E C (addFile st1 q) q).collected := by
                rw [ccf_collected_mem]
                exact Or.inl (addFile_self_mem st1 q)
              have hqtr : q ∉ (collect_config_files E C (addFile st1 q) q).trace := by
                rw [ccf_trace, addFile_trace, htr]
                intro hqq
                exact hfresh (by rw [hcoll] at hfresh ⊢; exact hInv.2.1 q hqq)
              have hInv3 : Inv st3 :=
                ih _ _ _ hrun1 hInv2 (by
                  intro r hr
                  cases hr
                  exact ⟨hqmem, hqtr⟩)
              exact ih _ _ _ h hInv3 (by intro r hr; cases hr)
            · simp at h
        · exact ih _ _ _ h hInv1 (by intro r hr; cases hr)

/-! ## Fuel sufficiency: the walk terminates

The quantity strictly decreasing at each recursion into a module is the
number of resolvable files not yet collected; the import loop additionally
shrinks its list.  On fuel exceeding the bound below, the walker never
exhausts it. -/

theorem deficit_congr (E : Env) {a b : St} (h : a.collected = b.collected) :
    deficit E a = deficit E b := by
  unfold deficit
  rw [h]

theorem deficit_mono (E : Env) {a b : St}
    (h : ∀ x ∈ a.collected, x ∈ b.collected) : deficit E b ≤ deficit E a := by
  unfold deficit
  refine List.countP_mono_left ?_
  intro y _ hy
  rw [decide_eq_true_eq] at hy ⊢
  intro hmem
  exact hy (h y hmem)

theorem deficit_addFile_lt (E : Env) {st : St} {q : Path}
    (hq : q ∈ allPathsE E) (hnew : q ∉ st.collected) :
    deficit E (addFile st q) < deficit E st := by
  unfold deficit
  refine countP_lt_of_mem hq ?_ ?_ ?_
  · rw [decide_eq_true_eq]
    exact hnew
  · rw [decide_eq_false_iff_not]
    intro hc
    exact hc (addFile_self_mem st q)
  · intro y _ hy
    rw [decide_eq_true_eq] at hy ⊢
    intro hmem
    exact hy (by rw [addFile_collected_mem]; exact Or.inr hmem)

theorem resolve_mem_allPaths {E : Env} {n : String} {q : Path}
    (h : resolveFn E n = some q) : q ∈ allPathsE E := by
  unfold allPathsE
  exact List.mem_map_of_mem _ (lookupA_mem _ _ _ h)

theorem parse_len_lt {E : Env} {p : Path} {m : PyBody}
    (h : parseFn E p = some m) : (analyze_imports m).length < impBound E := by
  have hm : (p, m) ∈ E.parseList := lookupA_mem _ _ _ h
  have hlen : (analyze_imports m).length ∈
      E.parseList.map (fun pr => (analyze_imports pr.2).length) :=
    List.mem_map_of_mem _ hm
  have := le_foldr_max _ _ hlen
  unfold impBound
  omega

theorem fuel_step {a b f : Nat} (h1 : a + 1 ≤ b) (h2 : b < f + 1) : a < f := by
  omega

theorem run_no_fuelOut (E : Env) (C : Coll) :
    ∀ (fuel : Nat) (st : St) (j : Job), fuelBound E st j < fuel →
      run E C fuel st j ≠ .error .fuelOut := by
  intro fuel
  induction fuel with
  | zero =>
    intro st j hb
    exact absurd hb (by omega)
  | succ fuel ih =>
    intro st j hb
    match j with
    | .file p =>
      rw [run]
      split
      · simp
      · rename_i m hm
        apply ih
        -- the import list is shorter than the bound, the deficit did not grow
        have hd1 : deficit E (collect_config_files E C (addTrace st p) p) ≤ deficit E st := by
          refine deficit_mono E ?_
          intro x hx
          rw [ccf_collected_mem]
          exact Or.inl hx
        have hlen : (analyze_imports m).length < impBound E := parse_len_lt hm
        refine fuel_step ?_ hb
        show (impBound E + 1) * deficit E (collect_config_files E C (addTrace st p) p) +
          (analyze_imports m).length + 1 ≤ (impBound E + 1) * deficit E st + impBound E
        have hmul : (impBound E + 1) * deficit E (collect_config_files E C (addTrace st p) p) ≤
            (impBound E + 1) * deficit E st :=
          Nat.mul_le_mul (le_refl _) hd1
        omega
    | .imps [] =>
      rw [run]
      simp
    | .imps (n :: rest) =>
      rw [run]
      split
      · rename_i st1 heq
        have hfst : (find_module_path E st n).1 = st1 := by rw [heq]
        have hd1 : deficit E st1 = deficit E st :=
          deficit_congr E (by rw [← hfst, fmp_fst_collected])
        apply ih
        refine fuel_step ?_ hb
        show (impBound E + 1) * deficit E st1 + rest.length + 1 ≤
          (impBound E + 1) * deficit E st + (rest.length + 1)
        rw [hd1]
        omega
      · rename_i st1 q heq
        have hfst : (find_module_path E st n).1 = st1 := by rw [heq]
        have hcoll : st1.collected = st.collected := by rw [← hfst, fmp_fst_collected]
        have hd1 : deficit E st1 = deficit E st := deficit_congr E hcoll
        split
        · split
          · apply ih
            refine fuel_step ?_ hb
            show (impBound E + 1) * deficit E st1 + rest.length + 1 ≤
              (impBound E + 1) * deficit E st + (rest.length + 1)
            rw [hd1]
            omega
          · rename_i hfresh
            have hqall : q ∈ allPathsE E := by
              refine resolve_mem_allPaths (n := n) ?_
              rw [← fmp_snd E st n, heq]
            have hd2 : deficit E (collect_config_files E C (addFile st1 q) q) + 1 ≤
                deficit E st := by
              have hlt : deficit E (addFile st1 q) < deficit E st1 :=
                deficit_addFile_lt E hqall hfresh
              have hle : deficit E (collect_config_files E C (addFile st1 q) q) ≤
                  deficit E (addFile st1 q) := by
                refine deficit_mono E ?_
                intro x hx
                rw [ccf_collected_mem]
                exact Or.inl hx
              omega
            have hbound2 : fuelBound E (collect_config_files E C (addFile st1 q) q)
                (.file q) < fuel := by
              refine fuel_step ?_ hb
              show (impBound E + 1) * deficit E (collect_config_files E C (addFile st1 q) q) +
                impBound E + 1 ≤ (impBound E + 1) * deficit E st + (rest.length + 1)
              have hmul : (impBound E + 1) *
                  (deficit E (collect_config_files E C (addFile st1 q) q) + 1) ≤
                  (impBound E + 1) * deficit E st :=
                Nat.mul_le_mul (le_refl _) hd2
              rw [Nat.mul_succ] at hmul
              omega
            split
            · rename_i st3 hrun1
              apply ih
              have hmono := (run_mono E C fuel _ _ _ hrun1).1
              have hd3 : deficit E st3 ≤
                  deficit E (collect_config_files E C (addFile st1 q) q) :=
                deficit_mono E hmono
              refine fuel_step ?_ hb
              show (impBound E + 1) * deficit E st3 + rest.length + 1 ≤
                (impBound E + 1) * deficit E st + (rest.length + 1)
              have hmul : (impBound E + 1) * deficit E st3 ≤
                  (impBound E + 1) * deficit E st :=
                Nat.mul_le_mul (le_refl _) (by omega)
              omega
            · rename_i e hrun1
              intro hcontra
              simp only [Except.error.injEq] at hcontra
              subst hcontra
              exact ih _ _ hbound2 hrun1
        · apply ih
          refine fuel_step ?_ hb
          show (impBound E + 1) * deficit E st1 + rest.length + 1 ≤
            (impBound E + 1) * deficit E st + (rest.length + 1)
          rw [hd1]
          omega

/-! ## Saturation: what a completed walk guarantees -/

theorem run_sat_imps (E : Env) (C : Coll) :
    ∀ (fuel : Nat) (st : St) (ns : List String) (st' : St),
      run E C fuel st (.imps ns) = .ok st' → ∀ n ∈ ns, SatName E C st' n := by
  intro fuel
  induction fuel with
  | zero =>
    intro st ns st' h
    rw [run] at h
    simp at h
  | succ fuel ih =>
    intro st ns st' h n hn
    match ns with
    | [] => simp at hn
    | n0 :: rest =>
      rw [run] at h
      split at h
      · rename_i st1 heq
        rcases List.mem_cons.mp hn with rfl | hn
        · have hres : resolveFn E n = none := by
            rw [← fmp_snd E st n, heq]
          simp only [SatName, hres]
        · exact ih _ _ _ h n hn
      · rename_i st1 q heq
        have hfst : (find_module_path E st n0).1 = st1 := by rw [heq]
        have hres : resolveFn E n0 = some q := by
          rw [← fmp_snd E st n0, heq]
        split at h
        · rename_i hproj
          split at h
          · rename_i hqmem
            rcases List.mem_cons.mp hn with rfl | hn
            · have mono := run_mono E C fuel _ _ _ h
              simp only [SatName, hres]
              refine ⟨fun _ => mono.1 q hqmem, ?_⟩
              intro hv pkg hpkg
              refine mono.2.1 pkg ?_
              rw [← hfst]
              exact fmp_records_pkg E st n q pkg hres hv hpkg
            · exact ih _ _ _ h n hn
          · split at h
            · rename_i st3 hrun1
              have mono3 := run_mono E C fuel _ _ _ hrun1
              have mono := run_mono E C fuel _ _ _ h
              rcases List.mem_cons.mp hn with rfl | hn
              · simp only [SatName, hres]
                constructor
                · intro _
                  refine mono.1 q (mono3.1 q ?_)
                  rw [ccf_collected_mem]
                  exact Or.inl (addFile_self_mem st1 q)
                · intro hv pkg hpkg
                  refine mono.2.1 pkg (mono3.2.1 pkg ?_)
                  rw [ccf_third, addFile_third, ← hfst]
                  exact fmp_records_pkg E st n q pkg hres hv hpkg
              · exact ih _ _ _ h n hn
            · simp at h
        · rename_i hproj
          rcases List.mem_cons.mp hn with rfl | hn
          · have mono := run_mono E C fuel _ _ _ h
            simp only [SatName, hres]
            refine ⟨fun hp => absurd hp hproj, ?_⟩
            intro hv pkg hpkg
            refine mono.2.1 pkg ?_
            rw [← hfst]
            exact fmp_records_pkg E st n q pkg hres hv hpkg
          · exact ih _ _ _ h n hn

theorem run_sat_file (E : Env) (C : Coll) {fuel : Nat} {st : St} {p : Path} {st' : St}
    (h : run E C fuel st (.file p) = .ok st') :
    ∃ m, parseFn E p = some m ∧ (∀ x ∈ configFiles E C p, x ∈ st'.collected) ∧
      ∀ n ∈ analyze_imports m, SatName E C st' n := by
  match fuel with
  | 0 =>
    rw [run] at h
    simp at h
  | fuel + 1 =>
    rw [run] at h
    split at h
    · simp at h
    · rename_i m hm
      refine ⟨m, hm, ?_, fun n hn => run_sat_imps E C fuel _ _ _ h n hn⟩
      intro x hx
      refine (run_mono E C fuel _ _ _ h).1 x ?_
      rw [ccf_collected_mem]
      exact Or.inr hx

/-! ## A saturated state absorbs a repeated walk -/

theorem run_imps_noop (E : Env) (C : Coll) :
    ∀ (ns : List String) (fuel : Nat) (st : St), (∀ n ∈ ns, SatName E C st n) →
      ns.length + 1 ≤ fuel → run E C fuel st (.imps ns) = .ok st := by
  intro ns
  induction ns with
  | nil =>
    intro fuel st _ hf
    match fuel with
    | 0 => exact absurd hf (by omega)
    | fuel + 1 => rw [run]
  | cons n rest ih =>
    intro fuel st hsat hf
    match fuel with
    | 0 => exact absurd hf (by omega)
    | fuel + 1 =>
      rw [run]
      have hhead := hsat n (List.mem_cons_self n rest)
      have hfst : (find_module_path E st n).1 = st := by
        refine fmp_fst_noop E st n ?_
        intro q pkg hq hv hpkg
        have hs := hhead
        simp only [SatName, hq] at hs
        exact hs.2 hv pkg hpkg
      have htail : ∀ n' ∈ rest, SatName E C st n' :=
        fun n' hn' => hsat n' (List.mem_cons_of_mem _ hn')
      have hflen : rest.length + 1 ≤ fuel := by
        simp only [List.length_cons] at hf
        omega
      split
      · rename_i st1 hfm
        have hst1 : st1 = st := by rw [← hfst, hfm]
        rw [hst1]
        exact ih fuel st htail hflen
      · rename_i st1 q hfm
        have hst1 : st1 = st := by rw [← hfst, hfm]
        have hres : resolveFn E n = some q := by
          rw [← fmp_snd E st n, hfm]
        simp only [SatName, hres] at hhead
        rw [hst1]
        by_cases hproj : is_project_module C q = true
        · rw [if_pos hproj, if_pos (hhead.1 hproj)]
          exact ih fuel st htail hflen
        · rw [if_neg hproj]
          exact ih fuel st htail hflen

theorem run_saturated_noop (E : Env) (C : Coll) {p : Path} {m : PyBody} {st : St}
    {fuel : Nat} (hm : parseFn E p = some m)
    (hcfg : ∀ x ∈ configFiles E C p, x ∈ st.collected)
    (hsat : ∀ n ∈ analyze_imports m, SatName E C st n)
    (hf : (analyze_imports m).length + 2 ≤ fuel) :
    run E C fuel st (.file p) = .ok (addTrace st p) := by
  match fuel with
  | 0 => exact absurd hf (by omega)
  | fuel + 1 =>
    rw [run]
    simp only [hm]
    have hccf : collect_config_files E C (addTrace st p) p = addTrace st p :=
      ccf_of_mem (fun x hx => hcfg x hx)
    rw [hccf]
    refine run_imps_noop E C _ fuel (addTrace st p) (fun n hn => hsat n hn) (by omega)

/-! ## What the import extractor reports -/

mutual
theorem mem_stmtImports : ∀ (s : PyStmt) (n : String), n ∈ stmtImports s ↔ Mentions s n
  | .importStmt ds, n => by
    simp only [stmtImports, List.mem_map]
    constructor
    · rintro ⟨d, hd, rfl⟩
      exact Mentions.imp hd
    · intro h
      cases h with
      | imp hd => exact ⟨_, hd, rfl⟩
  | .importFrom (some d), n => by
    simp only [stmtImports, List.mem_singleton]
    constructor
    · rintro rfl
      exact Mentions.fromImp
    · intro h
      cases h with
      | fromImp => rfl
  | .importFrom none, n =>
    iff_of_false (List.not_mem_nil n) (fun h => by cases h)
  | .funcDef b, n => by
    simp only [stmtImports]
    rw [mem_bodyImports b n]
    constructor
    · rintro ⟨s, hs, hm⟩
      exact Mentions.inFunc hs hm
    · intro h
      cases h with
      | inFunc hs hm => exact ⟨_, hs, hm⟩
  | .compound b, n => by
    simp only [stmtImports]
    rw [mem_bodyImports b n]
    constructor
    · rintro ⟨s, hs, hm⟩
      exact Mentions.inCompound hs hm
    · intro h
      cases h with
      | inCompound hs hm => exact ⟨_, hs, hm⟩
  | .simple, n =>
    iff_of_false (List.not_mem_nil n) (fun h => by cases h)

theorem mem_bodyImports : ∀ (b : PyBody) (n : String),
    n ∈ bodyImports b ↔ ∃ s ∈ b.toList, Mentions s n
  | .nil, n => by simp [bodyImports, PyBody.toList]
  | .cons s t, n => by
    simp only [bodyImports, List.mem_append, PyBody.toList, List.mem_cons]
    rw [mem_stmtImports s n, mem_bodyImports t n]
    constructor
    · rintro (h | ⟨s', hs', hm⟩)
      · exact ⟨s, Or.inl rfl, h⟩
      · exact ⟨s', Or.inr hs', hm⟩
    · rintro ⟨s', rfl | hs', hm⟩
      · exact Or.inl hm
      · exact Or.inr ⟨s', hs', hm⟩
end

theorem bodyImports_append : ∀ a b : PyBody,
    bodyImports (a.append b) = bodyImports a ++ bodyImports b
  | .nil, b => by simp [PyBody.append, bodyImports]
  | .cons s t, b => by
    rw [PyBody.append, bodyImports, bodyImports_append t b, bodyImports,
      List.append_assoc]

/-! # The claims -/

/-- Claim C8: for every syntactically valid source file, the import
extractor returns exactly the set of first dotted components of imported
module names — an `import x.y` alias contributes the head component of its
dotted name, a `from x.y import z` contributes the head component of the
module field, mentions are found at any nesting depth, and nothing else is
returned. -/
theorem C8_import_extractor_exact (m : PyBody) (n : String) :
    n ∈ analyze_imports m ↔ ∃ s ∈ m.toList, Mentions s n :=
  (List.mem_dedup).trans (mem_bodyImports m n)

/-- Claim C10: a purely relative from-import (one whose import node carries
no module name) contributes nothing to the import extractor: deleting such a
statement from any position of a module leaves the extracted name set
unchanged. -/
theorem C10_relative_import_invisible (pre post : PyBody) :
    analyze_imports (pre.append (.cons (.importFrom none) post)) =
      analyze_imports (pre.append post) := by
  unfold analyze_imports
  rw [bodyImports_append, bodyImports_append, bodyImports, stmtImports]
  simp

/-- Claim C3 (counterexample): the dependency-installation test is not fully
case-insensitive — a path containing the segment written as Site-Packages
matches the spec's case-insensitive reading but is rejected by the code,
whose installed-packages check compares case-sensitively. -/
theorem C3_counterexample_mixed_case_site_packages :
    venv_dir_spec "/usr/lib/Site-Packages/requests/compat.py" ∧
      is_venv_module "/usr/lib/Site-Packages/requests/compat.py" = false := by
  constructor
  · right
    exact (listHasSub_iff _ _).mp (by decide)
  · decide

/-- Claim C3 (amended): the venv check is case-insensitive (the lowercased
path is searched for the substring venv), while the installed-packages
check is case-sensitive (the original path is searched for the exact
lowercase substring site-packages). -/
theorem C3_amended_venv_test (s : String) :
    is_venv_module s = true ↔
      ("venv".data <:+: (strLower s).data ∨ "site-packages".data <:+: s.data) := by
  unfold is_venv_module
  rw [Bool.or_eq_true, strContains_iff, strContains_iff]

/-- Claim C2 (counterexample): the classification used during discovery does
not exclude installation directories — a module file inside a venv directory
underneath the project root is classified project-owned by the code (and is
added to the collected set by the static walker), although the spec's
definition classifies it as not project-owned. -/
theorem C2_counterexample_venv_under_root :
    is_project_module projColl ["proj", "venv", "lib", "m.py"] = true ∧
      ¬ project_owned_spec projColl ["proj", "venv", "lib", "m.py"] ∧
      ["proj", "venv", "lib", "m.py"] ∈
        okCollected (run venvEnv projColl 10 (initSt projColl)
          (.file ["proj", "app.py"])) :=
  ⟨by decide, fun h => absurd h.2.2 (by decide), by decide⟩

/-- Claim C2 (amended): the discovery classification marks a path
project-owned iff it differs from the entry-point path and lies at or below
the project root; being inside a venv or installed-packages directory is not
part of this classification (the venv filter is applied only later, by the
bundle assembler). -/
theorem C2_amended_classification (C : Coll) (p : Path) :
    is_project_module C p = true ↔ p ≠ C.gateway_path ∧ C.root_path <+: p := by
  unfold is_project_module
  split
  · rename_i h
    exact iff_of_false (by simp) (fun hc => hc.1 h)
  · rename_i h
    rw [startsWithL_iff]
    exact ⟨fun hp => ⟨h, hp⟩, fun hc => hc.2⟩

/-- Claim C1: the entry-point (gateway) file is always a member of the
collected file set — but the bundle assembler never copies it, because the
copy filter requires `is_project_module`, which is false for the gateway
path by construction.  This contradicts the spec's stated intent that the
entry point is always copied (the end-to-end scenario expects the entry
script in the output tree), so the claim is right and the code wrong. -/
theorem C1_entry_point_never_copied (C : Coll) (st : St) :
    C.gateway_path ∈ (initSt C).collected ∧ C.gateway_path ∉ copy_sources C st := by
  constructor
  · exact List.mem_cons_self _ _
  · intro h
    unfold copy_sources at h
    have hp := List.of_mem_filter h
    rw [Bool.and_eq_true] at hp
    have h1 := hp.1
    unfold is_project_module at h1
    rw [if_pos rfl] at h1
    simp at h1

/-- Claim C4 (counterexample): static import scanning does see imports that
occur only inside a function body — on a module whose sole statement is a
function definition containing the only import of lazym, the static walker
alone already adds lazym's file to the collected set. -/
theorem C4_counterexample_static_sees_nested_import :
    ["proj", "lazym.py"] ∈
      okCollected (run lazyEnv projColl 10 (initSt projColl)
        (.file ["proj", "app.py"])) := by
  decide

/-- Claim C4 (amended): an import statement nested inside a function
definition is visible to static scanning (the tree walk of the import
extractor visits nested nodes), so when its module resolves to a
project-owned file, the static walker alone already collects that file. -/
theorem C4_amended_nested_import_collected (E : Env) (C : Coll) (fuel : Nat)
    (st st' : St) (mdl body : PyBody) (ds : List String) (d : String)
    (e q : Path)
    (hparse : parseFn E e = some mdl)
    (hfd : PyStmt.funcDef body ∈ mdl.toList)
    (him : PyStmt.importStmt ds ∈ body.toList)
    (hd : d ∈ ds)
    (hres : resolveFn E (headComponent d) = some q)
    (hproj : is_project_module C q = true)
    (hrun : run E C fuel st (.file e) = .ok st') :
    q ∈ st'.collected := by
  obtain ⟨m, hm, _, hsat⟩ := run_sat_file E C hrun
  rw [hparse] at hm
  injection hm with hm
  rw [← hm] at hsat
  have hmem : headComponent d ∈ analyze_imports mdl := by
    unfold analyze_imports
    rw [List.mem_dedup, mem_bodyImports]
    exact ⟨_, hfd, Mentions.inFunc him (Mentions.imp hd)⟩
  have hs := hsat _ hmem
  simp only [SatName, hres] at hs
  exact hs.1 hproj

/-- Claim C4 (witness): the amended statement applied to the lazy-import
fixture. -/
theorem C4_amended_witness :
    ["proj", "lazym.py"] ∈
      (St.mk [["proj", "lazym.py"], ["proj", "app.py"]] []
        [["proj", "app.py"], ["proj", "lazym.py"]]).collected :=
  C4_amended_nested_import_collected lazyEnv projColl 10 (initSt projColl)
    (St.mk [["proj", "lazym.py"], ["proj", "app.py"]] []
      [["proj", "app.py"], ["proj", "lazym.py"]])
    (.cons (.funcDef (.cons (.importStmt ["lazym"]) .nil)) .nil)
    (.cons (.importStmt ["lazym"]) .nil) ["lazym"] "lazym"
    ["proj", "app.py"] ["proj", "lazym.py"]
    rfl (List.mem_cons_self _ _) (List.mem_cons_self _ _)
    (List.mem_cons_self _ _) (by decide) (by decide) (by decide)

/-- Claim C5 (counterexample): the manifest lines are sorted as whole
`name==version` strings, which is not the same as sorting by package name —
with packages abc and abc-d the dash sorts before the equals sign, so the
emitted order has abc-d first although abc is first by name. -/
theorem C5_counterexample_sort_not_by_name :
    create_requirements_txt ["abc==1.0", "abc-d==1.0"] =
        some ["abc-d==1.0", "abc==1.0"] ∧
      ¬ List.Sorted (fun a b => strLe (pkgName a) (pkgName b) = true)
          ["abc-d==1.0", "abc==1.0"] := by
  constructor
  · decide
  · decide

/-- Claim C5 (amended): the manifest is written iff the recorded package set
is non-empty, and then contains exactly one line per recorded package,
sorted lexicographically as whole `name==version` strings (which coincides
with sorting by name except when one package name is a proper prefix of
another). -/
theorem C5_amended_manifest (third : List String) (hnd : third.Nodup) :
    (create_requirements_txt third = none ↔ third = []) ∧
      ∀ out, create_requirements_txt third = some out →
        out.Nodup ∧ List.Sorted (fun a b => strLe a b = true) out ∧
          ∀ s, s ∈ out ↔ s ∈ third := by
  unfold create_requirements_txt
  split
  · rename_i h
    refine ⟨iff_of_true rfl h, ?_⟩
    intro out hout
    simp at hout
  · rename_i h
    refine ⟨iff_of_false (by simp) h, ?_⟩
    intro out hout
    simp only [Option.some.injEq] at hout
    subst hout
    refine ⟨?_, ?_, ?_⟩
    · exact (List.perm_insertionSort _ _).nodup_iff.mpr hnd
    · exact @List.sorted_insertionSort String (fun a b => strLe a b = true)
        strLeDecRel ⟨strLe_total⟩ ⟨fun _ _ _ h1 h2 => strLe_trans h1 h2⟩ third
    · exact fun s => (List.perm_insertionSort _ _).mem_iff

/-- Claim C5 (witness): the amended statement applied to a two-package set. -/
theorem C5_amended_witness :
    (create_requirements_txt ["b==2", "a==1"] = none ↔
        (["b==2", "a==1"] : List String) = []) ∧
      ∀ out, create_requirements_txt ["b==2", "a==1"] = some out →
        out.Nodup ∧ List.Sorted (fun a b => strLe a b = true) out ∧
          ∀ s, s ∈ out ↔ s ∈ (["b==2", "a==1"] : List String) :=
  C5_amended_manifest ["b==2", "a==1"] (by decide)

/-- Claim C6: on fuel exceeding the computable bound, the static walker
never exhausts it (it terminates on every finite import graph, cyclic ones
included), and a completed walk has analyzed no file twice and holds each
collected file exactly once. -/
theorem C6_walker_terminates_processes_once (E : Env) (C : Coll) (st : St)
    (p : Path) (fuel : Nat) (hInv : Inv st) (hmem : p ∈ st.collected)
    (htr : p ∉ st.trace) (hfuel : fuelBound E st (.file p) < fuel) :
    run E C fuel st (.file p) ≠ .error .fuelOut ∧
      ∀ st', run E C fuel st (.file p) = .ok st' →
        st'.trace.Nodup ∧ st'.collected.Nodup := by
  refine ⟨run_no_fuelOut E C fuel st _ hfuel, ?_⟩
  intro st' h
  have hi := run_inv E C fuel st _ st' h hInv (by
    intro q hq
    injection hq with hq
    subst hq
    exact ⟨hmem, htr⟩)
  exact ⟨hi.1, hi.2.2⟩

/-- Claim C6 (witness): on the mutual-import fixture the walk completes
without exhausting its fuel, analyzes no file twice, and both of the
mutually importing modules end up collected. -/
theorem C6_witness :
    (run cycEnv projColl 20 (initSt projColl) (.file ["proj", "app.py"]) ≠
        .error .fuelOut ∧
      ∀ st', run cycEnv projColl 20 (initSt projColl)
          (.file ["proj", "app.py"]) = .ok st' →
        st'.trace.Nodup ∧ st'.collected.Nodup) ∧
      ["proj", "a.py"] ∈ okCollected (run cycEnv projColl 20 (initSt projColl)
        (.file ["proj", "app.py"])) ∧
      ["proj", "b.py"] ∈ okCollected (run cycEnv projColl 20 (initSt projColl)
        (.file ["proj", "app.py"])) :=
  ⟨C6_walker_terminates_processes_once cycEnv projColl (initSt projColl)
      ["proj", "app.py"] 20 ⟨by decide, by decide, by decide⟩ (by decide)
      (by decide) (by decide),
    by decide, by decide⟩

/-- Claim C7: static discovery is idempotent — a second walk from the same
entry point, started in the state the first successful walk left, succeeds
and leaves the collected file set (and the package set) unchanged. -/
theorem C7_discovery_idempotent (E : Env) (C : Coll) (f1 f2 : Nat) (e : Path)
    (st0 st1 : St) (h1 : run E C f1 st0 (.file e) = .ok st1)
    (hf : impBound E + 1 ≤ f2) :
    ∃ st2, run E C f2 st1 (.file e) = .ok st2 ∧
      st2.collected = st1.collected ∧ st2.third = st1.third := by
  obtain ⟨m, hm, hcfg, hsat⟩ := run_sat_file E C h1
  have hlen := parse_len_lt hm
  exact ⟨addTrace st1 e, run_saturated_noop E C hm hcfg hsat (by omega), rfl, rfl⟩

/-- Claim C7 (witness): idempotence on the mutual-import fixture. -/
theorem C7_witness :
    ∃ st2, run cycEnv projColl 20
        (St.mk [["proj", "b.py"], ["proj", "a.py"], ["proj", "app.py"]] []
          [["proj", "app.py"], ["proj", "a.py"], ["proj", "b.py"]])
        (.file ["proj", "app.py"]) = .ok st2 ∧
      st2.collected =
        [["proj", "b.py"], ["proj", "a.py"], ["proj", "app.py"]] ∧
      st2.third = [] :=
  C7_discovery_idempotent cycEnv projColl 20 20 ["proj", "app.py"]
    (initSt projColl)
    (St.mk [["proj", "b.py"], ["proj", "a.py"], ["proj", "app.py"]] []
      [["proj", "app.py"], ["proj", "a.py"], ["proj", "b.py"]])
    (by decide) (by decide)

/-- Claim C9: a parse failure on the entry file aborts the walk with the
parse error, and a walk over an environment in which the entry file and
every resolvable file parse never reports a parse error — the error is
neither swallowed nor spuriously produced. -/
theorem C9_parse_error_propagates (E : Env) (C : Coll) (e : Path) (st : St)
    (fuel : Nat) :
    (parseFn E e = none → 1 ≤ fuel →
        run E C fuel st (.file e) = .error .parseErr) ∧
      ((∀ p, p ∈ e :: allPathsE E → (parseFn E p).isSome) →
        run E C fuel st (.file e) ≠ .error .parseErr) := by
  constructor
  · intro hnone hf
    match fuel, hf with
    | fuel + 1, _ =>
      rw [run]
      simp only [hnone]
  · intro hall
    have gen : ∀ (fuel' : Nat) (st' : St) (j : Job),
        (∀ q, j = Job.file q → (parseFn E q).isSome) →
        run E C fuel' st' j ≠ .error .parseErr := by
      intro fuel'
      induction fuel' with
      | zero =>
        intro st' j _
        rw [run]
        simp
      | succ fuel' ih =>
        intro st' j hj
        match j with
        | .file p =>
          rw [run]
          split
          · rename_i hp
            have hsome := hj p rfl
            rw [hp] at hsome
            simp at hsome
          · exact ih _ _ (fun q hq => by cases hq)
        | .imps [] =>
          rw [run]
          simp
        | .imps (n :: rest) =>
          rw [run]
          split
          · exact ih _ _ (fun q hq => by cases hq)
          · rename_i st1 q heq
            split
            · split
              · exact ih _ _ (fun r hr => by cases hr)
              · have hq : (parseFn E q).isSome := by
                  refine hall q (List.mem_cons_of_mem _ ?_)
                  refine resolve_mem_allPaths (n := n) ?_
                  rw [← fmp_snd E st' n, heq]
                split
                · exact ih _ _ (fun r hr => by cases hr)
                · rename_i err hrun1
                  intro hcontra
                  simp only [Except.error.injEq] at hcontra
                  subst hcontra
                  refine ih _ _ ?_ hrun1
                  intro r hr
                  cases hr
                  exact hq
            · exact ih _ _ (fun r hr => by cases hr)
    refine gen fuel st _ ?_
    intro q hq
    injection hq with hq
    subst hq
    exact hall _ (List.mem_cons_self _ _)

/-- Claim C9 (witness): on an empty host the entry file fails to parse and
the walk returns the parse error; on the mutual-import fixture everything
parses and no parse error is reported. -/
theorem C9_witness :
    run emptyEnv projColl 5 (initSt projColl) (.file ["proj", "app.py"]) =
        .error .parseErr ∧
      run cycEnv projColl 20 (initSt projColl) (.file ["proj", "app.py"]) ≠
        .error .parseErr :=
  ⟨(C9_parse_error_propagates emptyEnv projColl ["proj", "app.py"]
        (initSt projColl) 5).1 rfl (by decide),
    (C9_parse_error_propagates cycEnv projColl ["proj", "app.py"]
        (initSt projColl) 20).2 (by decide)⟩

end ScriptDeps
